import Mathlib

/-!
# Verification of the objbrowse core against its specification

Shallow embedding of the objbrowse sources:
* `src/objbrowse/main.go` (package `main` plus the `obj` package definitions
  appended to that file: `Mem`, `Sym`, `Open`, `synthesizeSizes`);
* `src/objbrowse/objbrowse.js` (`IntervalMap`, `AddrJS`, `renderLiveness`,
  `Bitmap`, `parseBitmap`).

Go machine integers are modelled as `Nat` with explicit `% 2^64` where
overflow can occur; JavaScript numbers are modelled as `Int` (or `Option Int`
where `NaN`/`undefined` can arise, with `none` standing for those non-number
values) and as `ℚ` where a genuine division occurs.  Fallible code returns
`Except` or `Option`.
-/

namespace Objbrowse

/-! ## The `obj` package: symbols, `synthesizeSizes` and `Open`
    (from the `obj` package source appended to `src/objbrowse/main.go`). -/

/-- `obj.SymKind` is a byte-sized character code (`'?'`, `'T'`, `'D'`, `'R'`,
`'B'`, `'U'`, `'A'`). -/
def SymKind := Char

instance : DecidableEq SymKind := fun a b => decEq (α := Char) a b

def SymUndef : SymKind := 'U'
def SymText : SymKind := 'T'

/-- `obj.Sym`: name, value (address), size, kind, local flag.  Addresses and
sizes are `uint64` in the source; we carry them as `Nat` and apply `% 2^64`
wherever the source's arithmetic could wrap. -/
structure Sym where
  Name : String
  Value : Nat
  Size : Nat
  Kind : SymKind
  Local : Bool
deriving DecidableEq

instance : Inhabited Sym := ⟨⟨"", 0, 0, SymUndef, false⟩⟩

/-- `uint64` subtraction: `a - b` wraps modulo `2^64`. -/
def u64sub (a b : Nat) : Nat := (2 ^ 64 + a - b) % 2 ^ 64

/-- The comparison the source hands to `sort.Slice` orders symbols by
ascending `Value`; we model the resulting order with insertion sort over
`Value ≤ Value` (the source's sort is unstable, but any output it may produce
is nondecreasing by `Value`, which is all the spec and the theorems use). -/
def byValue (a b : Sym) : Prop := a.Value ≤ b.Value

instance : DecidableRel byValue := fun a b => Nat.decLe a.Value b.Value

instance : IsTotal Sym byValue := ⟨fun a b => Nat.le_total a.Value b.Value⟩

instance : IsTrans Sym byValue := ⟨fun _ _ _ => Nat.le_trans⟩

def sortByValue (l : List Sym) : List Sym := List.insertionSort byValue l

/-- The assignment loop of `obj.synthesizeSizes`: for each index `i`, if
`syms[i].Size == 0 && syms[i].Kind != SymUndef && i+1 < len(syms)` then
`syms[i].Size = syms[i+1].Value - syms[i].Value`.  The loop only ever writes
the `Size` field and only ever reads the successor's `Value` field, so the
in-place update is equivalent to this one-pass map over (element, successor)
pairs. -/
def assignSizes : List Sym → List Sym
  | [] => []
  | [s] => [s]
  | s :: t :: rest =>
    (if s.Size = 0 ∧ s.Kind ≠ SymUndef then { s with Size := u64sub t.Value s.Value } else s)
      :: assignSizes (t :: rest)

/-- `obj.synthesizeSizes`: sort by address, then assign sizes to 0-sized
symbols from the gap to the next symbol. -/
def synthesizeSizes (syms : List Sym) : List Sym := assignSizes (sortByValue syms)

theorem assignSizes_length : ∀ l : List Sym, (assignSizes l).length = l.length
  | [] => rfl
  | [_] => rfl
  | _ :: t :: rest => by
    simpa [assignSizes] using assignSizes_length (t :: rest)

theorem assignSizes_getElem? : ∀ (l : List Sym) (i : Nat),
    (assignSizes l)[i]? =
      match l[i]?, l[i + 1]? with
      | some s, some t =>
        some (if s.Size = 0 ∧ s.Kind ≠ SymUndef then
          { s with Size := u64sub t.Value s.Value } else s)
      | some s, none => some s
      | none, _ => none
  | [], i => by simp [assignSizes]
  | [s], 0 => by simp [assignSizes]
  | [s], (i + 1) => by simp [assignSizes]
  | s :: t :: rest, 0 => by simp [assignSizes]
  | s :: t :: rest, (i + 1) => by
    have ih := assignSizes_getElem? (t :: rest) i
    simpa [assignSizes] using ih

theorem sortByValue_sorted (l : List Sym) : (sortByValue l).Sorted byValue :=
  List.sorted_insertionSort byValue l

theorem sortByValue_perm (l : List Sym) : (sortByValue l).Perm l :=
  List.perm_insertionSort byValue l

theorem sortByValue_length (l : List Sym) : (sortByValue l).length = l.length :=
  (sortByValue_perm l).length_eq

/-- C2.  Symbol size synthesis: after sorting by address, a symbol with
declared size 0 that is not undefined and not last gets
`size = next.Value - this.Value` (ordinary subtraction: sorting makes the
`uint64` subtraction non-wrapping); undefined symbols and the final symbol
are left untouched (keeping size 0 when it was 0). -/
theorem synthesizeSizes_spec (syms : List Sym)
    (hv : ∀ s ∈ syms, s.Value < 2 ^ 64) (i : Nat) :
    (synthesizeSizes syms).length = syms.length ∧
    (∀ s t, (sortByValue syms)[i]? = some s → (sortByValue syms)[i + 1]? = some t →
      s.Size = 0 → s.Kind ≠ SymUndef →
      (synthesizeSizes syms)[i]? = some { s with Size := t.Value - s.Value }) ∧
    (∀ s, (sortByValue syms)[i]? = some s →
      (s.Size ≠ 0 ∨ s.Kind = SymUndef ∨ (sortByValue syms)[i + 1]? = none) →
      (synthesizeSizes syms)[i]? = some s) := by
  have hlen := sortByValue_length syms
  have hmain := assignSizes_getElem? (sortByValue syms) i
  refine ⟨by simp [synthesizeSizes, assignSizes_length, hlen], ?_, ?_⟩
  · intro s t hs ht hz hk
    have hle : s.Value ≤ t.Value := by
      obtain ⟨hi, hs'⟩ := List.getElem?_eq_some_iff.mp hs
      obtain ⟨hi1, ht'⟩ := List.getElem?_eq_some_iff.mp ht
      have := (sortByValue_sorted syms).rel_get_of_lt
        (a := ⟨i, hi⟩) (b := ⟨i + 1, hi1⟩) (by simp)
      rw [List.get_eq_getElem, List.get_eq_getElem] at this
      rw [hs', ht'] at this
      exact this
    have hb : t.Value < 2 ^ 64 :=
      hv t ((sortByValue_perm syms).subset (List.getElem?_mem ht))
    have hsub : u64sub t.Value s.Value = t.Value - s.Value := by
      unfold u64sub
      omega
    rw [synthesizeSizes, hmain, hs, ht]
    simp [hz, hk, hsub]
  · intro s hs hcase
    rw [synthesizeSizes, hmain, hs]
    rcases hcase with h | h | h
    · cases hnext : (sortByValue syms)[i + 1]? <;> simp [h]
    · cases hnext : (sortByValue syms)[i + 1]? <;> simp [h, SymUndef]
    · simp [h]

/-- Witness for C2 at the spec's example: symbols at addresses 100, 200, 300
with declared sizes 0, 0, 50 (text kind): the first synthesized size is
`200 - 100 = 100`. -/
theorem synthesizeSizes_spec_witness :
    (synthesizeSizes
        [⟨"a", 100, 0, SymText, false⟩, ⟨"b", 200, 0, SymText, false⟩,
          ⟨"c", 300, 50, SymText, false⟩])[0]? =
      some ⟨"a", 100, 100, SymText, false⟩ :=
  (synthesizeSizes_spec
      [⟨"a", 100, 0, SymText, false⟩, ⟨"b", 200, 0, SymText, false⟩,
        ⟨"c", 300, 50, SymText, false⟩]
      (by decide) 0).2.1
    ⟨"a", 100, 0, SymText, false⟩ ⟨"b", 200, 0, SymText, false⟩
    (by decide) (by decide) (by decide) (by decide)

/-! ## `obj.Open` (C4): backend probing order -/

/-- `obj.Open`: try `openElf`, then `openPE`, against the same reader; the
first backend whose result has `err == nil` wins, otherwise report
"unrecognized object file format".  The two backends are external to the
embedded sources, so `Open` is parametrized by their results on the given
input (`Except.ok` = the backend accepted the input). -/
def OpenObj {α : Type} (elfRes peRes : Except String α) : Except String α :=
  match elfRes with
  | .ok f => .ok f
  | .error _ =>
    match peRes with
    | .ok f => .ok f
    | .error _ => .error "unrecognized object file format"

/-- C4.  `Open` tries ELF first, then PE, returns the first backend that
accepts the input, and returns the unrecognized-format error iff neither
accepts. -/
theorem OpenObj_spec {α : Type} (elfRes peRes : Except String α) :
    (∀ f, elfRes = .ok f → OpenObj elfRes peRes = .ok f) ∧
    (∀ m f, elfRes = .error m → peRes = .ok f → OpenObj elfRes peRes = .ok f) ∧
    (OpenObj elfRes peRes = .error "unrecognized object file format" ↔
      (∃ m, elfRes = .error m) ∧ ∃ m, peRes = .error m) := by
  refine ⟨?_, ?_, ?_⟩
  · intro f hf
    simp [OpenObj, hf]
  · intro m f hm hf
    simp [OpenObj, hm, hf]
  · constructor
    · intro h
      cases helf : elfRes with
      | ok f => simp [OpenObj, helf] at h
      | error m =>
        cases hpe : peRes with
        | ok f => simp [OpenObj, helf, hpe] at h
        | error m' => exact ⟨⟨m, rfl⟩, ⟨m', rfl⟩⟩
    · rintro ⟨⟨m, hm⟩, ⟨m', hm'⟩⟩
      simp [OpenObj, hm, hm']

/-- Witness for C4: with ELF rejecting and PE accepting, `Open` returns the
PE object; with both rejecting it returns the unrecognized-format error. -/
theorem OpenObj_spec_witness :
    OpenObj (α := Nat) (.error "not ELF") (.ok 7) = .ok 7 ∧
    OpenObj (α := Nat) (.error "not ELF") (.error "not PE") =
      .error "unrecognized object file format" :=
  ⟨(OpenObj_spec (α := Nat) (.error "not ELF") (.ok 7)).2.1 "not ELF" 7 rfl rfl,
    (OpenObj_spec (α := Nat) (.error "not ELF") (.error "not PE")).2.2.mpr
      ⟨⟨"not ELF", rfl⟩, ⟨"not PE", rfl⟩⟩⟩

/-! ## `obj.Mem.Data` (C6): sparse memory-map reads

The `Mem` implementations (the ELF/PE backends' memory maps) are not among
the embedded sources; only the interface and its contract are. -/

/-- Modelled from the spec: the format backends implementing `obj.Mem.Data`
are missing from the sources (only the `Mem` interface declaration and its
doc comment are present).  Per the spec, a sparse memory map is a set of
backed segments; `Data(ptr, size)` "returns the data at ptr in the memory
map.  If size exceeds the size of the data at ptr, the result will be
smaller than size.  If ptr isn't in the memory map at all, the result will
be nil."  A memory map is a list of `(start, bytes)` segments. -/
def MemData (m : List (Nat × List Nat)) (ptr size : Nat) : List Nat :=
  match m.find? (fun seg => decide (seg.1 ≤ ptr ∧ ptr < seg.1 + seg.2.length)) with
  | some seg => (seg.2.drop (ptr - seg.1)).take size
  | none => []

/-- C6.  `Data(address, maxSize)` is total for arbitrary addresses: the
result never exceeds `maxSize` bytes; an entirely unbacked address yields the
empty result (never an error — the function is total by construction); and
when the backing segment has only `k < maxSize` bytes at `address`, exactly
those `k` bytes are returned. -/
theorem MemData_spec (m : List (Nat × List Nat)) (ptr size : Nat) :
    (MemData m ptr size).length ≤ size ∧
    ((∀ seg ∈ m, ¬(seg.1 ≤ ptr ∧ ptr < seg.1 + seg.2.length)) →
      MemData m ptr size = []) ∧
    (∀ seg, m.find? (fun seg => decide (seg.1 ≤ ptr ∧ ptr < seg.1 + seg.2.length)) =
        some seg →
      seg.2.length - (ptr - seg.1) < size →
      MemData m ptr size = seg.2.drop (ptr - seg.1) ∧
      (MemData m ptr size).length = seg.2.length - (ptr - seg.1)) := by
  refine ⟨?_, ?_, ?_⟩
  · unfold MemData
    cases m.find? (fun seg => decide (seg.1 ≤ ptr ∧ ptr < seg.1 + seg.2.length)) with
    | none => simp
    | some seg => simp [List.length_take_le]
  · intro h
    unfold MemData
    cases hf : m.find? (fun seg => decide (seg.1 ≤ ptr ∧ ptr < seg.1 + seg.2.length)) with
    | none => rfl
    | some seg =>
      have hmem := List.mem_of_find?_eq_some hf
      have hp := List.find?_some hf
      simp only [decide_eq_true_eq] at hp
      exact absurd hp (h seg hmem)
  · intro seg hf hshort
    have hdrop : (seg.2.drop (ptr - seg.1)).length = seg.2.length - (ptr - seg.1) :=
      List.length_drop _ _
    have htake : (seg.2.drop (ptr - seg.1)).take size = seg.2.drop (ptr - seg.1) :=
      List.take_of_length_le (by omega)
    have hres : MemData m ptr size = seg.2.drop (ptr - seg.1) := by
      unfold MemData
      rw [hf]
      exact htake
    exact ⟨hres, by rw [hres, hdrop]⟩

/-- Witness for C6: a map backing exactly 3 bytes at address 100 returns
those 3 bytes for `Data(100, 10)`, and a fully unbacked address returns the
empty result. -/
theorem MemData_spec_witness :
    MemData [(100, [7, 8, 9])] 100 10 = [7, 8, 9] ∧
    MemData [(100, [7, 8, 9])] 500 10 = [] :=
  ⟨((MemData_spec [(100, [7, 8, 9])] 100 10).2.2 (100, [7, 8, 9]) (by decide)
      (by decide)).1,
    (MemData_spec [(100, [7, 8, 9])] 500 10).2.1 (by decide)⟩

/-! ## `main.open` (C1): process-level error handling -/

/-- Modelled from the spec: the `functab` package is not among the embedded
sources (only its caller in `main.open` is).  Per the spec, decoding the
function-metadata blob "fails closed (`UnsupportedVersion`)" on a
version-tag mismatch and with `MalformedFunctionTable` on header validation
failure or truncated data. -/
inductive FuncTabError where
  | UnsupportedVersion
  | MalformedFunctionTable
deriving DecidableEq

def FuncTabError.message : FuncTabError → String
  | .UnsupportedVersion => "unsupported version"
  | .MalformedFunctionTable => "malformed function table"

/-- Modelled from the spec: a decoded function descriptor (entry address and
frame-layout deltas); only the `PC` field is read by `main.open`. -/
structure FuncRec where
  PC : Nat
deriving DecidableEq

/-- What `main.open` produces: either the process terminates (`log.Fatal`)
or a `*state` value. -/
inductive OpenResult where
  | fatal (msg : String)
  | ok (symTab : List Sym) (pcToFunc : List (Nat × FuncRec))
deriving DecidableEq

/-- The results of the external calls `main.open` makes, in program order:
`os.Open`, `obj.Open`, `bin.Symbols`, `symTab.Name("runtime.pclntab")`,
`bin.SymbolData(pclntab)`, `functab.NewFuncTab`. -/
structure OpenEnv where
  osOpen : Except String Unit
  objOpen : Except String Unit
  symbols : Except String (List Sym)
  pclntab : Option Sym
  symbolData : Except String (List Nat)
  newFuncTab : Except FuncTabError (List FuncRec)

/-- `main.open`, mirroring `src/objbrowse/main.go` lines 49–86: every `err`
check is `log.Fatal(err)`, which terminates the whole process. -/
def openMain (e : OpenEnv) : OpenResult :=
  match e.osOpen with
  | .error m => .fatal m
  | .ok _ =>
    match e.objOpen with
    | .error m => .fatal m
    | .ok _ =>
      match e.symbols with
      | .error m => .fatal m
      | .ok syms =>
        match e.pclntab with
        | none => .ok syms []
        | some _ =>
          match e.symbolData with
          | .error m => .fatal m
          | .ok _ =>
            match e.newFuncTab with
            | .error err => .fatal err.message
            | .ok funcs => .ok syms (funcs.map (fun fn => (fn.PC, fn)))

/-- C1 counterexample: with `runtime.pclntab` present and function-table
decoding failing with `UnsupportedVersion`, `open` hits `log.Fatal` — the
whole process terminates, so no scoped error is reported and no browsing
state survives, contrary to the claim. -/
theorem openMain_pclntab_failure_fatal :
    openMain
        { osOpen := .ok ()
          objOpen := .ok ()
          symbols := .ok [⟨"runtime.pclntab", 4096, 32, 'D', false⟩]
          pclntab := some ⟨"runtime.pclntab", 4096, 32, 'D', false⟩
          symbolData := .ok [255, 255, 255, 255]
          newFuncTab := .error .UnsupportedVersion } =
      .fatal "unsupported version" := rfl

/-- C1 amended: whenever `runtime.pclntab` is found and `functab.NewFuncTab`
fails (with any typed error, `UnsupportedVersion` included), `main.open`
calls `log.Fatal` with that error and the whole process terminates; it never
returns a usable state in that situation. -/
theorem openMain_pclntab_failure_spec (e : OpenEnv)
    (h1 : e.osOpen = .ok ()) (h2 : e.objOpen = .ok ())
    (syms : List Sym) (h3 : e.symbols = .ok syms)
    (s : Sym) (h4 : e.pclntab = some s)
    (d : List Nat) (h5 : e.symbolData = .ok d)
    (err : FuncTabError) (h6 : e.newFuncTab = .error err) :
    openMain e = .fatal err.message ∧ ∀ st pc, openMain e ≠ .ok st pc := by
  have hres : openMain e = .fatal err.message := by
    unfold openMain
    rw [h1, h2, h3, h4, h5, h6]
  exact ⟨hres, fun st pc h => by rw [hres] at h; exact OpenResult.noConfusion h⟩

/-- Witness for the amended C1 at a concrete environment. -/
theorem openMain_pclntab_failure_spec_witness :
    openMain
        { osOpen := .ok ()
          objOpen := .ok ()
          symbols := .ok []
          pclntab := some ⟨"runtime.pclntab", 4096, 32, 'D', false⟩
          symbolData := .ok []
          newFuncTab := .error .MalformedFunctionTable } =
      .fatal "malformed function table" :=
  (openMain_pclntab_failure_spec _ rfl rfl [] rfl
      ⟨"runtime.pclntab", 4096, 32, 'D', false⟩ rfl [] rfl
      .MalformedFunctionTable rfl).1

/-! ## `objbrowse.js`: `parseBitmap` and `Bitmap.bit` (C3, C7)

JavaScript numbers that can be `NaN` are modelled as `Option Int`
(`none` = `NaN`); `undefined` array reads are modelled with `Option`
defaults.  Strings are handled as `List Char`. -/

def jsWhitespace (c : Char) : Bool :=
  c = ' ' || c = '\t' || c = '\n' || c = '\r'

/-- The numeric value of a character as a `parseInt` digit. -/
def digitValue (c : Char) : Option Nat :=
  if '0' ≤ c ∧ c ≤ '9' then some (c.toNat - '0'.toNat)
  else if 'a' ≤ c ∧ c ≤ 'z' then some (c.toNat - 'a'.toNat + 10)
  else if 'A' ≤ c ∧ c ≤ 'Z' then some (c.toNat - 'A'.toNat + 10)
  else none

def isRadixDigit (radix : Nat) (c : Char) : Bool :=
  match digitValue c with
  | some v => decide (v < radix)
  | none => false

/-- JavaScript `parseInt(s, radix)`: skip whitespace, optional sign, an
optional `0x` marker when the radix is 16, then the longest prefix of valid
digits; `NaN` (here `none`) when that prefix is empty; trailing garbage is
ignored. -/
def jsParseInt (s : List Char) (radix : Nat) : Option Int :=
  let l := s.dropWhile jsWhitespace
  let signed : Bool × List Char :=
    match l with
    | '-' :: rest => (true, rest)
    | '+' :: rest => (false, rest)
    | _ => (false, l)
  let body :=
    if radix = 16 then
      match signed.2 with
      | '0' :: 'x' :: rest => rest
      | '0' :: 'X' :: rest => rest
      | _ => signed.2
    else signed.2
  let ds := body.takeWhile (isRadixDigit radix)
  if ds.isEmpty then none
  else
    let v : Nat := ds.foldl (fun acc c => acc * radix + (digitValue c).getD 0) 0
    some (if signed.1 then -(v : Int) else (v : Int))

/-- JavaScript `s.split(sep)` for a one-character separator. -/
def jsSplitChar (sep : Char) : List Char → List (List Char)
  | [] => [[]]
  | c :: rest =>
    if c = sep then [] :: jsSplitChar sep rest
    else
      match jsSplitChar sep rest with
      | [] => [[c]]
      | a :: as => (c :: a) :: as

/-- `parts[1].substr(i, 2)` chunks of the packed hex run. -/
def hexPairs : List Char → List (List Char)
  | [] => []
  | [c] => [[c]]
  | c1 :: c2 :: rest => [c1, c2] :: hexPairs rest

/-- `Bitmap(nbits, bytes)`: the constructor stores the bit count in `this.n`
(there is no `nbits` field) and the byte array in `this.bytes`. -/
structure BitmapJS where
  n : Option Int
  bytes : List (Option Int)
deriving DecidableEq

/-- JavaScript `v >> s` for small values: arithmetic shift = floor division. -/
def jsShr (v : Int) (s : Nat) : Int := Int.fdiv v (2 ^ s)

/-- `Bitmap.prototype.bit(n)`.  The source guard is
`n < 0 || n >= this.nbits`; the constructor only ever assigns `this.n`, so
`this.nbits` is `undefined` and `n >= undefined` is always false — the upper
bound is never enforced.  Out-of-range byte reads give `undefined`, which
`>>` coerces to 0. -/
def bitJS (bm : BitmapJS) (n : Int) : Except String Int :=
  if n < 0 then .error "out of range"
  else .ok ((jsShr (((bm.bytes.getD (n / 8).toNat none).getD 0)) (n % 8).toNat) % 2)

/-- `parseBitmap(bitmap)`: split on `":"` with limit 2, decimal bit count,
packed hex bytes.  When the record has no `":"`, `parts[1]` is `undefined`
and `parts[1].length` throws a `TypeError` (modelled as `.error`). -/
def parseBitmapJS (bitmap : List Char) : Except String BitmapJS :=
  let parts := (jsSplitChar ':' bitmap).take 2
  match parts with
  | p0 :: p1 :: _ =>
    .ok { n := jsParseInt p0 10
          bytes := (hexPairs p1).map (fun pr => jsParseInt pr 16) }
  | _ => .error "TypeError: parts[1] is undefined"

/-- C3 (code bug): for the decoded record `"1:02"` (bit count 1), `bit(1)`
must fail with an index-out-of-range error per the claim, but the code
returns the stored padding bit `1`: the guard reads `this.nbits`, a field
the constructor never assigns (it assigns `this.n`), so the upper-bound
check never fires.  The lower bound (`n < 0`) does throw. -/
theorem bitJS_upper_bound_unchecked :
    parseBitmapJS ['1', ':', '0', '2'] = .ok ⟨some 1, [some 2]⟩ ∧
    bitJS ⟨some 1, [some 2]⟩ 0 = .ok 0 ∧
    bitJS ⟨some 1, [some 2]⟩ 1 = .ok 1 ∧
    bitJS ⟨some 1, [some 2]⟩ (-1) = .error "out of range" :=
  ⟨rfl, rfl, rfl, rfl⟩

/-- C7.  Liveness bitmap decoding is deterministic: two decodes of the same
record yield bit-for-bit identical bitmaps (same count, same bytes) —
`parseBitmap` is a pure function of its input. -/
theorem parseBitmapJS_deterministic (s : List Char) (b1 b2 : BitmapJS)
    (h1 : parseBitmapJS s = .ok b1) (h2 : parseBitmapJS s = .ok b2) :
    b1.n = b2.n ∧ b1.bytes = b2.bytes := by
  rw [h1] at h2
  cases h2
  exact ⟨rfl, rfl⟩

/-- Witness for C7 at the record `"2:03"`. -/
theorem parseBitmapJS_deterministic_witness :
    parseBitmapJS ['2', ':', '0', '3'] = .ok ⟨some 2, [some 3]⟩ ∧
    (⟨some 2, [some 3]⟩ : BitmapJS).n = (⟨some 2, [some 3]⟩ : BitmapJS).n ∧
    (⟨some 2, [some 3]⟩ : BitmapJS).bytes = (⟨some 2, [some 3]⟩ : BitmapJS).bytes :=
  ⟨rfl, parseBitmapJS_deterministic ['2', ':', '0', '3'] _ _ rfl rfl⟩

/-! ## `main.parse` (C8): the disassembly-text splitter -/

/-- `strings.Index(s, " ")` (Go returns -1 for "not found"; we use `none`). -/
def sIndex (p : Char → Bool) : List Char → Option Nat
  | [] => none
  | a :: as => if p a then some 0 else (sIndex p as).map (· + 1)

theorem sIndex_spec (p : Char → Bool) :
    ∀ (l : List Char) (j : Nat), sIndex p l = some j →
      ∃ c, l[j]? = some c ∧ p c = true
  | [], j, h => by simp [sIndex] at h
  | a :: as, j, h => by
    by_cases hp : p a
    · simp [sIndex, hp] at h
      exact ⟨a, by simp [← h], hp⟩
    · simp [sIndex, hp] at h
      obtain ⟨j', hj', rfl⟩ := h
      obtain ⟨c, hc, hpc⟩ := sIndex_spec p as j' hj'
      exact ⟨c, by simpa using hc, hpc⟩

theorem sIndex_lt_length (p : Char → Bool) (l : List Char) (j : Nat)
    (h : sIndex p l = some j) : j < l.length := by
  obtain ⟨c, hc, _⟩ := sIndex_spec p l j h
  exact (List.getElem?_eq_some_iff.mp hc).1

theorem getElem?_drop_add (l : List Char) (n m : Nat) :
    (l.drop n)[m]? = l[n + m]? := by
  induction l generalizing n with
  | nil => simp
  | cons a as ih =>
    cases n with
    | zero => simp
    | succ n => simp [Nat.succ_add]

/-- The prefix-skipping loop of `main.parse`: while `i > 0 && disasm[i-1]
== ';'`, advance `i` to the next space after `i` (or give up with -1,
here `none`).  The `getD` default is harmless: the loop is entered only with
`i` an index of a space in `s`, so `i - 1` is in bounds. -/
def opEndLoop (s : List Char) (i : Nat) : Option Nat :=
  if 0 < i ∧ s.getD (i - 1) ' ' = ';' then
    match hj : sIndex (· == ' ') (s.drop (i + 1)) with
    | none => none
    | some j => opEndLoop s (i + 1 + j)
  else some i
termination_by s.length - i
decreasing_by
  have hlt := sIndex_lt_length _ _ _ hj
  simp only [List.length_drop] at hlt
  omega

theorem opEndLoop_space (s : List Char) (i : Nat) :
    s[i]? = some ' ' → ∀ k, opEndLoop s i = some k → s[k]? = some ' ' := by
  refine opEndLoop.induct s
    (fun i => s[i]? = some ' ' → ∀ k, opEndLoop s i = some k → s[k]? = some ' ')
    ?_ ?_ ?_ i
  · intro i hcond hj hsp k hk
    rw [opEndLoop, if_pos hcond, hj] at hk
    exact absurd hk (by simp)
  · intro i hcond j hj ih hsp k hk
    rw [opEndLoop, if_pos hcond, hj] at hk
    obtain ⟨c, hc, hpc⟩ := sIndex_spec _ _ _ hj
    rw [getElem?_drop_add] at hc
    have hc' : s[i + 1 + j]? = some ' ' := by
      rwa [show c = ' ' by simpa using hpc] at hc
    exact ih hc' k hk
  · intro i hcond hsp k hk
    rw [opEndLoop, if_neg hcond] at hk
    cases hk
    exact hsp

/-- `strings.Split(s, ", ")`: leftmost-first, non-overlapping. -/
def splitArgs : List Char → List (List Char)
  | [] => [[]]
  | ',' :: ' ' :: rest => [] :: splitArgs rest
  | c :: rest =>
    match splitArgs rest with
    | [] => [[c]]
    | a :: as => (c :: a) :: as

/-- `strings.Join(args, ", ")`, the inverse used to state losslessness. -/
def joinArgs : List (List Char) → List Char
  | [] => []
  | [a] => a
  | a :: rest => a ++ ',' :: ' ' :: joinArgs rest

theorem splitArgs_cons_ne (c : Char) (rest : List Char)
    (hne : ∀ rest1 : List Char, c = ',' → rest = ' ' :: rest1 → False) :
    splitArgs (c :: rest) =
      match splitArgs rest with
      | [] => [[c]]
      | a :: as => (c :: a) :: as := by
  rw [splitArgs.eq_def]
  split
  · rename_i heq
    exact absurd heq (by simp)
  · rename_i rest1 heq
    exact absurd rfl (by cases heq; exact fun h => hne rest1 h rfl)
  · rename_i c' rest' hne' heq
    cases heq
    rfl

theorem splitArgs_ne_nil : ∀ l : List Char, splitArgs l ≠ [] := by
  intro l
  induction l using splitArgs.induct with
  | case1 => simp [splitArgs]
  | case2 rest ih => simp [splitArgs]
  | case3 c rest hne hnil ih => exact absurd hnil ih
  | case4 c rest hne a as heq ih =>
    rw [splitArgs_cons_ne c rest hne, heq]
    simp

theorem joinArgs_splitArgs : ∀ l : List Char, joinArgs (splitArgs l) = l := by
  intro l
  induction l using splitArgs.induct with
  | case1 => rfl
  | case2 rest ih =>
    have h2 : splitArgs (',' :: ' ' :: rest) = [] :: splitArgs rest := by
      simp [splitArgs]
    rcases hsp : splitArgs rest with _ | ⟨a, as⟩
    · exact absurd hsp (splitArgs_ne_nil rest)
    · rw [hsp] at ih
      rw [h2, hsp]
      simpa [joinArgs] using ih
  | case3 c rest hne hnil ih => exact absurd hnil (splitArgs_ne_nil rest)
  | case4 c rest hne a as heq ih =>
    rw [splitArgs_cons_ne c rest hne, heq]
    rw [heq] at ih
    cases as with
    | nil =>
      simp only [joinArgs] at ih ⊢
      rw [ih]
    | cons b bs =>
      simp only [joinArgs, List.cons_append] at ih ⊢
      rw [ih]

/-- `main.parse`: find the op/arguments split point (skipping
semicolon-terminated prefixes), then split the remainder on `", "`. -/
def parseDisasm (s : List Char) : List Char × List (List Char) :=
  match sIndex (· == ' ') s with
  | none => (s, [])
  | some i0 =>
    match opEndLoop s i0 with
    | none => (s, [])
    | some i => (s.take i, splitArgs (s.drop (i + 1)))

theorem parseDisasm_eq_of_sIndex_none (s : List Char)
    (h : sIndex (· == ' ') s = none) : parseDisasm s = (s, []) := by
  unfold parseDisasm
  rw [h]

theorem parseDisasm_eq_opEnd (s : List Char) (i0 : Nat)
    (h0 : sIndex (· == ' ') s = some i0) :
    parseDisasm s =
      match opEndLoop s i0 with
      | none => (s, [])
      | some i => (s.take i, splitArgs (s.drop (i + 1))) := by
  unfold parseDisasm
  rw [h0]

theorem parseDisasm_eq_of_opEnd_none (s : List Char) (i0 : Nat)
    (h0 : sIndex (· == ' ') s = some i0) (h1 : opEndLoop s i0 = none) :
    parseDisasm s = (s, []) := by
  rw [parseDisasm_eq_opEnd s i0 h0, h1]

theorem parseDisasm_eq_of_opEnd_some (s : List Char) (i0 i : Nat)
    (h0 : sIndex (· == ' ') s = some i0) (h1 : opEndLoop s i0 = some i) :
    parseDisasm s = (s.take i, splitArgs (s.drop (i + 1))) := by
  rw [parseDisasm_eq_opEnd s i0 h0, h1]

/-- C8.  The splitter is lossless: either there is no split and `op` is the
whole input with no args, or `op ++ " " ++ join(args, ", ")` reproduces the
input exactly. -/
theorem parseDisasm_lossless (s : List Char) :
    ((parseDisasm s).2 = [] ∧ (parseDisasm s).1 = s) ∨
    (parseDisasm s).1 ++ ' ' :: joinArgs (parseDisasm s).2 = s := by
  cases h0 : sIndex (· == ' ') s with
  | none => rw [parseDisasm_eq_of_sIndex_none s h0]; exact Or.inl ⟨rfl, rfl⟩
  | some i0 =>
    obtain ⟨c0, hc0, hp0⟩ := sIndex_spec _ _ _ h0
    have hsp0 : s[i0]? = some ' ' := by rwa [show c0 = ' ' by simpa using hp0] at hc0
    cases hend : opEndLoop s i0 with
    | none => rw [parseDisasm_eq_of_opEnd_none s i0 h0 hend]; exact Or.inl ⟨rfl, rfl⟩
    | some i =>
      have hsp : s[i]? = some ' ' := opEndLoop_space s i0 hsp0 i hend
      obtain ⟨hi, hgi⟩ := List.getElem?_eq_some_iff.mp hsp
      rw [parseDisasm_eq_of_opEnd_some s i0 i h0 hend]
      refine Or.inr ?_
      simp only
      rw [joinArgs_splitArgs]
      calc s.take i ++ ' ' :: s.drop (i + 1)
          = s.take i ++ s[i] :: s.drop (i + 1) := by rw [hgi]
        _ = s.take i ++ s.drop i := by rw [List.getElem_cons_drop s i hi]
        _ = s := List.take_append_drop i s

/-! ## `renderLiveness` (C5): aligning liveness bitmaps to instructions

JS numbers that may be `NaN` (or `undefined` fields that only ever flow into
numeric contexts) are `Option Int`: arithmetic propagates `none`,
`Math.min`/`Math.max` return `NaN` on a `NaN` input, and every `<`/`>`
comparison with `NaN` is false. -/

def jsAdd (a b : Option Int) : Option Int :=
  match a, b with
  | some x, some y => some (x + y)
  | _, _ => none

def jsSub (a b : Option Int) : Option Int :=
  match a, b with
  | some x, some y => some (x - y)
  | _, _ => none

def jsMul (a b : Option Int) : Option Int :=
  match a, b with
  | some x, some y => some (x * y)
  | _, _ => none

def jsMin (a b : Option Int) : Option Int :=
  match a, b with
  | some x, some y => some (min x y)
  | _, _ => none

def jsMax (a b : Option Int) : Option Int :=
  match a, b with
  | some x, some y => some (max x y)
  | _, _ => none

def jsLtB (a b : Option Int) : Bool :=
  match a, b with
  | some x, some y => decide (x < y)
  | _, _ => false

/-- The fields of the liveness `info` object that `renderLiveness` reads
(`info.Locals`/`info.Args` are passed separately, already decoded by the
`parseBitmap` loop at the top of the function). -/
structure LInfo where
  PtrSize : Int
  VarpDelta : Int
  ArgpDelta : Int
  SPOff : List Int
  Indexes : List Int
deriving DecidableEq

/-- One `iextra[i]` record: `varp`/`argp` are always assigned; `localp` is
only assigned inside the `varp > 0` block (`none` = `undefined`, or `NaN` if
the bitmap count was `NaN`). -/
structure IExtra where
  varp : Int
  argp : Int
  localp : Option Int
deriving DecidableEq

/-- The running `liveMin`/`liveMax`/`argMin`/`argMax` accumulator. -/
structure LAcc where
  liveMin : Option Int
  liveMax : Option Int
  argMin : Option Int
  argMax : Option Int
deriving DecidableEq

/-- `var liveMin = 0xffffffff; var liveMax = 0;` (and the same for args). -/
def initAcc : LAcc := ⟨some 0xffffffff, some 0, some 0xffffffff, some 0⟩

/-- One iteration of the first loop of `renderLiveness` (instruction `i`):
compute `varp`/`argp`, skip (`continue`) on `spoff <= 0` or a negative
bitmap index, otherwise extend the covered local/argument ranges.
`locals[index]`/`args[index]` being `undefined` would make `.n` throw a
`TypeError`, modelled as `.error`. -/
def stepLive (info : LInfo) (locals args : List BitmapJS) (acc : LAcc) (i : Nat) :
    Except String (LAcc × IExtra) :=
  let spoff := info.SPOff.getD i 0
  let varp := info.VarpDelta + spoff
  let argp := info.ArgpDelta + spoff
  let ext : IExtra := ⟨varp, argp, none⟩
  if spoff ≤ 0 then .ok (acc, ext)
  else
    let index := info.Indexes.getD i 0
    if index < 0 then .ok (acc, ext)
    else do
      let st1 ←
        if 0 < varp then
          match locals.get? index.toNat with
          | none => Except.error "TypeError: locals[index] is undefined"
          | some bm =>
            let localp := jsSub (some varp) (jsMul bm.n (some info.PtrSize))
            Except.ok ({ acc with liveMin := jsMin acc.liveMin localp,
                                  liveMax := jsMax acc.liveMax (some varp) },
                       { ext with localp := localp })
        else Except.ok (acc, ext)
      if 0 < argp then
        match args.get? index.toNat with
        | none => Except.error "TypeError: args[index] is undefined"
        | some bm =>
          Except.ok ({ st1.1 with argMin := jsMin st1.1.argMin (some argp),
                                  argMax := jsMax st1.1.argMax
                                    (jsAdd (some argp) (jsMul bm.n (some info.PtrSize))) },
                     st1.2)
      else Except.ok st1

/-- The whole first loop over instructions `0 .. n-1`. -/
def liveLoop (info : LInfo) (locals args : List BitmapJS) : Nat → Except String (LAcc × List IExtra)
  | 0 => .ok (initAcc, [])
  | n + 1 => do
    let st ← liveLoop info locals args n
    let st' ← stepLive info locals args st.1 n
    pure (st'.1, st.2 ++ [st'.2])

/-- `for (let a = lo; a < hi; a += step)`: the visited values, for a
positive step (the only case the source exercises — `step` is the pointer
size; a `NaN` bound ends the loop immediately). -/
def addrRange (lo hi : Option Int) (step : Int) : List Int :=
  match lo, hi with
  | some l, some h =>
    if 0 < step then
      (List.range ((h - l + step - 1) / step).toNat).map (fun k => l + step * k)
    else []
  | _, _ => []

/-- `Bitmap.prototype.bit` applied to the (possibly fractional) index
computed in `addBit`: `Math.floor(n/8)` selects the byte, `n % 8` (truncated
to an integer by `>>`) the shift; an out-of-bounds byte read is `undefined`,
coerced to 0 by `>>`.  As in `bitJS`, the `n >= this.nbits` half of the
guard compares with `undefined` and never fires. -/
def bitQ (bm : BitmapJS) (i : ℚ) : Except String Int :=
  if i < 0 then .error "out of range"
  else
    let k : Int := Int.floor (i / 8)
    let shift : Nat := (Int.floor (i - 8 * (k : ℚ))).toNat
    .ok ((jsShr ((bm.bytes.getD k.toNat none).getD 0) shift) % 2)

/-- The `addBit` closure of `renderLiveness`: the text of one table cell.
`i = (addr - base) / ptrSize` as a real (JS float) number; with `base`
`undefined`/`NaN` the guard `0 <= i && i < bitmap.n` is false and the cell
is blank, as it is when `bitmap` is `undefined` or its count is `NaN`. -/
def addBitCell (ptrSize : Int) (addr : Int) (bitmap : Option BitmapJS)
    (base : Option Int) : Except String String :=
  match base with
  | none => .ok ""
  | some b =>
    let i : ℚ := ((addr : ℚ) - (b : ℚ)) / (ptrSize : ℚ)
    match bitmap with
    | none => .ok ""
    | some bm =>
      match bm.n with
      | none => .ok ""
      | some nv =>
        if 0 ≤ i ∧ i < (nv : ℚ) then
          match bitQ bm i with
          | .error e => .error e
          | .ok v => .ok (if v ≠ 0 then "P" else "-")
        else .ok ""

/-- Run one cell computation per address, left to right, propagating a
thrown error. -/
def cellsM (f : Int → Except String String) : List Int → Except String (List String)
  | [] => .ok []
  | a :: as => do
    let t ← f a
    let ts ← cellsM f as
    pure (t :: ts)

/-- The liveness cells of one table row (instruction `i` with bitmap index
`index` and per-instruction record `ext`): the locals columns, then — when
`argMin < argMax` (`haveArgs`) — an empty separator cell and the argument
columns. -/
def rowCells (ptrSize : Int) (locals args : List BitmapJS) (index : Int)
    (ext : IExtra) (acc : LAcc) : Except String (List String) :=
  let lbm := if 0 ≤ index then locals.get? index.toNat else none
  let abm := if 0 ≤ index then args.get? index.toNat else none
  match cellsM (fun addr => addBitCell ptrSize addr lbm ext.localp)
      (addrRange acc.liveMin acc.liveMax ptrSize) with
  | .error e => .error e
  | .ok localCells =>
    if jsLtB acc.argMin acc.argMax then
      match cellsM (fun addr => addBitCell ptrSize addr abm (some ext.argp))
          (addrRange acc.argMin acc.argMax ptrSize) with
      | .error e => .error e
      | .ok argCells => .ok (localCells ++ [""] ++ argCells)
    else .ok localCells

theorem addBitCell_base_none (ps addr : Int) (bm : Option BitmapJS) :
    addBitCell ps addr bm none = .ok "" := rfl

theorem addBitCell_bitmap_none (ps addr : Int) (b : Option Int) :
    addBitCell ps addr none b = .ok "" := by
  cases b <;> rfl

theorem bitQ_ok (bm : BitmapJS) (i : ℚ) (h : 0 ≤ i) : ∃ v, bitQ bm i = .ok v := by
  unfold bitQ
  rw [if_neg (not_lt.mpr h)]
  exact ⟨_, rfl⟩

theorem addBitCell_some_some (ps addr : Int) (bm : BitmapJS) (b : Int) :
    addBitCell ps addr (some bm) (some b) =
      match bm.n with
      | none => .ok ""
      | some nv =>
        if 0 ≤ ((addr : ℚ) - (b : ℚ)) / (ps : ℚ) ∧
            ((addr : ℚ) - (b : ℚ)) / (ps : ℚ) < (nv : ℚ) then
          match bitQ bm (((addr : ℚ) - (b : ℚ)) / (ps : ℚ)) with
          | .error e => .error e
          | .ok v => .ok (if v ≠ 0 then "P" else "-")
        else .ok "" := rfl

theorem addBitCell_ok (ps addr : Int) (bm : Option BitmapJS) (b : Option Int) :
    ∃ t, addBitCell ps addr bm b = .ok t := by
  cases b with
  | none => exact ⟨"", rfl⟩
  | some bv =>
    cases bm with
    | none => exact ⟨"", addBitCell_bitmap_none ps addr (some bv)⟩
    | some bmv =>
      rw [addBitCell_some_some]
      cases hn : bmv.n with
      | none => exact ⟨"", rfl⟩
      | some nv =>
        show ∃ t,
          (if 0 ≤ ((addr : ℚ) - (bv : ℚ)) / (ps : ℚ) ∧
              ((addr : ℚ) - (bv : ℚ)) / (ps : ℚ) < (nv : ℚ) then
            (match bitQ bmv (((addr : ℚ) - (bv : ℚ)) / (ps : ℚ)) with
              | Except.error e => Except.error e
              | Except.ok v => Except.ok (if v ≠ 0 then "P" else "-") :
              Except String String)
          else Except.ok "") = Except.ok t
        by_cases hg : 0 ≤ ((addr : ℚ) - (bv : ℚ)) / (ps : ℚ) ∧
            ((addr : ℚ) - (bv : ℚ)) / (ps : ℚ) < (nv : ℚ)
        · obtain ⟨v, hv⟩ := bitQ_ok bmv _ hg.1
          rw [if_pos hg, hv]
          exact ⟨_, rfl⟩
        · rw [if_neg hg]
          exact ⟨"", rfl⟩

theorem cellsM_const_blank : ∀ (l : List Int) (f : Int → Except String String),
    (∀ a ∈ l, f a = .ok "") → cellsM f l = .ok (l.map fun _ => "")
  | [], f, h => rfl
  | a :: as, f, h => by
    have ha := h a (List.mem_cons_self a as)
    have ih := cellsM_const_blank as f (fun b hb => h b (List.mem_cons_of_mem a hb))
    simp only [cellsM, ha, ih, List.map_cons]
    rfl

theorem stepLive_skip (info : LInfo) (locals args : List BitmapJS) (acc : LAcc)
    (i : Nat) (hskip : info.SPOff.getD i 0 ≤ 0 ∨ info.Indexes.getD i 0 < 0) :
    stepLive info locals args acc i =
      .ok (acc, ⟨info.VarpDelta + info.SPOff.getD i 0,
        info.ArgpDelta + info.SPOff.getD i 0, none⟩) := by
  simp only [stepLive]
  by_cases h1 : info.SPOff.getD i 0 ≤ 0
  · rw [if_pos h1]
  · have h2 : info.Indexes.getD i 0 < 0 := hskip.resolve_left h1
    rw [if_neg h1, if_pos h2]

theorem rowCells_neg_index (ps : Int) (locals args : List BitmapJS) (index : Int)
    (hidx : index < 0) (ext : IExtra) (acc : LAcc) :
    rowCells ps locals args index ext acc =
      .ok (if jsLtB acc.argMin acc.argMax then
          ((addrRange acc.liveMin acc.liveMax ps).map fun _ => "") ++ [""] ++
            ((addrRange acc.argMin acc.argMax ps).map fun _ => "")
        else (addrRange acc.liveMin acc.liveMax ps).map fun _ => "") := by
  unfold rowCells
  simp only [if_neg (not_le.mpr hidx)]
  rw [cellsM_const_blank _ _ (fun a _ => addBitCell_bitmap_none ps a ext.localp),
    cellsM_const_blank _ _ (fun a _ => addBitCell_bitmap_none ps a (some ext.argp))]
  cases hargs : jsLtB acc.argMin acc.argMax <;> simp [hargs]

/-- C5 amended.  An instruction whose stack-pointer delta is the unknown
sentinel (-1) or non-positive, or whose bitmap index is negative, contributes
nothing to the covered-range computation (the accumulator is returned
unchanged, `localp` stays unassigned), and this never produces an error;
its locals cells are always blank (`localp` is `undefined`), and when the
bitmap index is negative every one of its cells is blank.  (As the
counterexample shows, a skipped instruction with a non-negative stale index
can still be displayed with argument liveness bits, because `argp` is
computed for every instruction — so "reported as having no liveness data"
does not hold in general.) -/
theorem renderLiveness_skip_spec (info : LInfo) (locals args : List BitmapJS)
    (acc : LAcc) (i : Nat)
    (hskip : info.SPOff.getD i 0 ≤ 0 ∨ info.Indexes.getD i 0 < 0) :
    stepLive info locals args acc i =
      .ok (acc, ⟨info.VarpDelta + info.SPOff.getD i 0,
        info.ArgpDelta + info.SPOff.getD i 0, none⟩) ∧
    (∀ ps addr bm, addBitCell ps addr bm none = .ok "") ∧
    (∀ ps addr bm b, ∃ t, addBitCell ps addr bm b = .ok t) ∧
    (info.Indexes.getD i 0 < 0 → ∀ ext ps, ∃ cells,
      rowCells ps locals args (info.Indexes.getD i 0) ext acc = .ok cells ∧
      ∀ c ∈ cells, c = "") := by
  refine ⟨stepLive_skip info locals args acc i hskip,
    fun ps addr bm => addBitCell_base_none ps addr bm,
    fun ps addr bm b => addBitCell_ok ps addr bm b,
    fun hidx ext ps => ?_⟩
  refine ⟨_, rowCells_neg_index ps locals args _ hidx ext acc, ?_⟩
  intro c hc
  by_cases hargs : jsLtB acc.argMin acc.argMax
  · rw [if_pos hargs] at hc
    rcases List.mem_append.mp hc with hc' | hc'
    · rcases List.mem_append.mp hc' with hc'' | hc''
      · obtain ⟨a, _, ha⟩ := List.mem_map.mp hc''
        exact ha.symm
      · simpa using hc''
    · obtain ⟨a, _, ha⟩ := List.mem_map.mp hc'
      exact ha.symm
  · rw [if_neg hargs] at hc
    obtain ⟨a, _, ha⟩ := List.mem_map.mp hc
    exact ha.symm

/-- Witness for C5 (amended) at the counterexample scenario's second
instruction (`SPOff[1] = 0`, a RET with a stale bitmap index). -/
theorem renderLiveness_skip_spec_witness :
    stepLive ⟨8, -8, 8, [16, 0], [0, 0]⟩ [⟨some 1, [some 1]⟩] [⟨some 4, [some 15]⟩]
        initAcc 1 =
      .ok (initAcc, ⟨-8, 8, none⟩) := by
  have h := (renderLiveness_skip_spec ⟨8, -8, 8, [16, 0], [0, 0]⟩
    [⟨some 1, [some 1]⟩] [⟨some 4, [some 15]⟩] initAcc 1 (Or.inl (by decide))).1
  exact h

/-- C5 counterexample: in a function whose first instruction has
`SPOff = 16` and bitmap index 0 (locals bitmap `1:01`, args bitmap `4:0f`,
pointer size 8, `VarpDelta = -8`, `ArgpDelta = 8`), the second instruction
is a RET with `SPOff = 0` (no frame — skipped by the alignment loop) and a
stale bitmap index 0.  Its rendered row still shows argument liveness bits
(`"P"` cells): `argp = ArgpDelta + 0 = 8` is assigned for every instruction,
skipped or not, so the claim that such an instruction "is reported as having
no liveness data" is false. -/
theorem renderLiveness_skipped_args_leak :
    liveLoop ⟨8, -8, 8, [16, 0], [0, 0]⟩ [⟨some 1, [some 1]⟩] [⟨some 4, [some 15]⟩] 2 =
      .ok (⟨some 0, some 8, some 24, some 56⟩, [⟨8, 24, some 0⟩, ⟨-8, 8, none⟩]) ∧
    ((⟨8, -8, 8, [16, 0], [0, 0]⟩ : LInfo).SPOff.getD 1 0 ≤ 0) ∧
    rowCells 8 [⟨some 1, [some 1]⟩] [⟨some 4, [some 15]⟩] 0 ⟨-8, 8, none⟩
        ⟨some 0, some 8, some 24, some 56⟩ =
      .ok ["", "", "P", "P", "", ""] :=
  ⟨rfl, by decide, by with_unfolding_all rfl⟩

/-! ## `AddrJS` (C9): arbitrary-precision addresses in 28-bit digits

An `AddrJS` value is a little-endian list of base-`2^28` digits; the
constructor trims trailing zero digits, so every value reachable through the
class API has digits `< 2^28` and a non-zero top digit (`AddrWF`). -/

/-- `AddrJSBits = 28`; digits live below `2^28`. -/
def AddrBase : Nat := 2 ^ 28

/-- The numeric value of a little-endian digit list. -/
def valD : List Nat → Nat
  | [] => 0
  | d :: ds => d + AddrBase * valD ds

def goodDigits (l : List Nat) : Prop := ∀ d ∈ l, d < AddrBase

/-- `_trim()`: pop trailing zero digits. -/
def trimD (l : List Nat) : List Nat := (l.reverse.dropWhile (· == 0)).reverse

/-- The class invariant of constructor-produced `AddrJS` values: digits in
range and no trailing zero digit. -/
def AddrWF (l : List Nat) : Prop :=
  goodDigits l ∧ ∀ d, l.getLast? = some d → d ≠ 0

/-- The digit loop of `compare`, which runs from the most significant digit
(`i = length-1` down to `0`): pointwise comparison of the reversed lists. -/
def cmpMS : List Nat → List Nat → Int
  | [], [] => 0
  | a :: as, b :: bs => if a < b then -1 else if b < a then 1 else cmpMS as bs
  | _, _ => 0

/-- `AddrJS.compare`: shorter is smaller, then most-significant-first digit
comparison. -/
def compareD (x y : List Nat) : Int :=
  if x.length < y.length then -1
  else if y.length < x.length then 1
  else cmpMS x.reverse y.reverse

/-- The digit loop of `add` (`o & mask` / `o >> 28`), plus the final
`out.push(carry)`. -/
def addDigits : List Nat → List Nat → Nat → List Nat
  | [], [], c => [c]
  | [], b :: bs, c => (b + c) % AddrBase :: addDigits [] bs ((b + c) / AddrBase)
  | a :: as, [], c => (a + c) % AddrBase :: addDigits as [] ((a + c) / AddrBase)
  | a :: as, b :: bs, c =>
    (a + b + c) % AddrBase :: addDigits as bs ((a + b + c) / AddrBase)

/-- `AddrJS.add`: the loop, then `new AddrJS(undefined, out)` (which trims). -/
def addA (x y : List Nat) : List Nat := trimD (addDigits x y 0)

/-- The digit loop of `sub`: `yy = (y[i]||0) + borrow`; on `xx < yy` the
borrow is set and `xx += 1 << 28` before pushing `xx - yy`.  `none` models
`throw("negative result")` when the borrow survives the loop. -/
def subDigits : List Nat → List Nat → Nat → Option (List Nat)
  | [], [], br => if br = 0 then some [] else none
  | [], b :: bs, br =>
    if 0 < b + br then (subDigits [] bs 1).map ((0 + AddrBase - (b + br)) :: ·)
    else (subDigits [] bs 0).map ((0 - (b + br)) :: ·)
  | a :: as, [], br =>
    if a < br then (subDigits as [] 1).map ((a + AddrBase - br) :: ·)
    else (subDigits as [] 0).map ((a - br) :: ·)
  | a :: as, b :: bs, br =>
    if a < b + br then (subDigits as bs 1).map ((a + AddrBase - (b + br)) :: ·)
    else (subDigits as bs 0).map ((a - (b + br)) :: ·)

/-- `AddrJS.sub`: the loop, the borrow check, then the trimming
constructor. -/
def subA (x y : List Nat) : Option (List Nat) := (subDigits x y 0).map trimD

theorem valD_append_single (l : List Nat) (d : Nat) :
    valD (l ++ [d]) = valD l + d * AddrBase ^ l.length := by
  induction l with
  | nil => simp [valD]
  | cons a as ih =>
    show a + AddrBase * valD (as ++ [d]) =
      a + AddrBase * valD as + d * AddrBase ^ (as.length + 1)
    rw [ih]
    ring

theorem valD_dropWhile_reverse : ∀ r : List Nat,
    valD ((r.dropWhile (· == 0)).reverse) = valD r.reverse
  | [] => rfl
  | d :: r => by
    by_cases hd : d = 0
    · subst hd
      rw [List.dropWhile_cons_of_pos (by simp)]
      rw [valD_dropWhile_reverse r]
      simp [valD_append_single]
    · rw [List.dropWhile_cons_of_neg (by simp [hd])]

theorem valD_trimD (l : List Nat) : valD (trimD l) = valD l := by
  unfold trimD
  rw [valD_dropWhile_reverse l.reverse, List.reverse_reverse]

theorem goodDigits_trimD (l : List Nat) (h : goodDigits l) : goodDigits (trimD l) := by
  intro d hd
  apply h
  unfold trimD at hd
  rw [List.mem_reverse] at hd
  have := (List.dropWhile_sublist (l := l.reverse) (p := (· == 0))).mem hd
  rwa [List.mem_reverse] at this

theorem head?_dropWhile_ne : ∀ (r : List Nat) (d : Nat),
    (r.dropWhile (· == 0)).head? = some d → d ≠ 0
  | [], d, h => by simp at h
  | a :: r, d, h => by
    by_cases ha : a = 0
    · subst ha
      rw [List.dropWhile_cons_of_pos (by simp)] at h
      exact head?_dropWhile_ne r d h
    · rw [List.dropWhile_cons_of_neg (by simp [ha])] at h
      simp at h
      omega

theorem trimmed_trimD (l : List Nat) : ∀ d, (trimD l).getLast? = some d → d ≠ 0 := by
  intro d hd
  unfold trimD at hd
  rw [List.getLast?_reverse] at hd
  exact head?_dropWhile_ne l.reverse d hd

theorem addrWF_trimD (l : List Nat) (h : goodDigits l) : AddrWF (trimD l) :=
  ⟨goodDigits_trimD l h, trimmed_trimD l⟩

theorem addrBase_pos : 0 < AddrBase := by decide

theorem valD_lt (l : List Nat) (h : goodDigits l) : valD l < AddrBase ^ l.length := by
  induction l with
  | nil => simp [valD]
  | cons a as ih =>
    have ha : a < AddrBase := h a (List.mem_cons_self a as)
    have has : valD as < AddrBase ^ as.length :=
      ih (fun d hd => h d (List.mem_cons_of_mem a hd))
    show a + AddrBase * valD as < AddrBase ^ (as.length + 1)
    calc a + AddrBase * valD as < AddrBase + AddrBase * valD as := by omega
      _ = AddrBase * (valD as + 1) := by ring
      _ ≤ AddrBase * AddrBase ^ as.length := by
          exact Nat.mul_le_mul_left AddrBase (by omega)
      _ = AddrBase ^ (as.length + 1) := by ring

theorem le_valD_of_trimmed : ∀ l : List Nat, l ≠ [] →
    (∀ d, l.getLast? = some d → d ≠ 0) →
    AddrBase ^ (l.length - 1) ≤ valD l
  | [], h, _ => absurd rfl h
  | [a], _, ht => by
    have : a ≠ 0 := ht a (by simp)
    show AddrBase ^ 0 ≤ a + AddrBase * valD []
    simp [valD]
    omega
  | a :: b :: rest, _, ht => by
    have ht' : ∀ d, (b :: rest).getLast? = some d → d ≠ 0 := by
      intro d hd
      exact ht d (by rwa [List.getLast?_cons_cons])
    have ih := le_valD_of_trimmed (b :: rest) (by simp) ht'
    show AddrBase ^ (rest.length + 1) ≤ a + AddrBase * valD (b :: rest)
    have hlen : (b :: rest).length - 1 = rest.length := by simp
    rw [hlen] at ih
    calc AddrBase ^ (rest.length + 1) = AddrBase * AddrBase ^ rest.length := by ring
      _ ≤ AddrBase * valD (b :: rest) := Nat.mul_le_mul_left AddrBase ih
      _ ≤ a + AddrBase * valD (b :: rest) := by omega

/-- Most-significant-first value, for reasoning about the `compare` loop. -/
def valR : List Nat → Nat
  | [] => 0
  | d :: ds => d * AddrBase ^ ds.length + valR ds

theorem valR_append (u v : List Nat) :
    valR (u ++ v) = valR u * AddrBase ^ v.length + valR v := by
  induction u with
  | nil => simp [valR]
  | cons d u ih =>
    show d * AddrBase ^ (u ++ v).length + valR (u ++ v) =
      (d * AddrBase ^ u.length + valR u) * AddrBase ^ v.length + valR v
    rw [ih, List.length_append]
    ring

theorem valR_reverse (l : List Nat) : valR l.reverse = valD l := by
  induction l with
  | nil => rfl
  | cons a as ih =>
    rw [List.reverse_cons, valR_append, ih]
    show valD as * AddrBase ^ (1 : Nat) + (a * AddrBase ^ (0 : Nat) + 0) =
      a + AddrBase * valD as
    ring

theorem valR_lt (l : List Nat) (h : goodDigits l) : valR l < AddrBase ^ l.length := by
  induction l with
  | nil => simp [valR]
  | cons a as ih =>
    have ha : a < AddrBase := h a (List.mem_cons_self a as)
    have has : valR as < AddrBase ^ as.length :=
      ih (fun d hd => h d (List.mem_cons_of_mem a hd))
    show a * AddrBase ^ as.length + valR as < AddrBase ^ (as.length + 1)
    calc a * AddrBase ^ as.length + valR as
        < a * AddrBase ^ as.length + AddrBase ^ as.length := by omega
      _ = (a + 1) * AddrBase ^ as.length := by ring
      _ ≤ AddrBase * AddrBase ^ as.length := Nat.mul_le_mul_right _ (by omega)
      _ = AddrBase ^ (as.length + 1) := by ring

theorem cmpMS_correct : ∀ r s : List Nat, r.length = s.length →
    goodDigits r → goodDigits s →
    cmpMS r s = if valR r < valR s then -1 else if valR s < valR r then 1 else 0
  | [], [], _, _, _ => by simp [cmpMS, valR]
  | [], _ :: _, h, _, _ => by simp at h
  | _ :: _, [], h, _, _ => by simp at h
  | a :: as, b :: bs, hlen, hr, hs => by
    have hlen' : as.length = bs.length := by simpa using hlen
    have ha : a < AddrBase := hr a (List.mem_cons_self a as)
    have hb : b < AddrBase := hs b (List.mem_cons_self b bs)
    have hras : valR as < AddrBase ^ as.length :=
      valR_lt as (fun d hd => hr d (List.mem_cons_of_mem a hd))
    have hrbs : valR bs < AddrBase ^ bs.length :=
      valR_lt bs (fun d hd => hs d (List.mem_cons_of_mem b hd))
    show (if a < b then (-1 : Int) else if b < a then 1 else cmpMS as bs) = _
    by_cases hab : a < b
    · rw [if_pos hab]
      have : valR (a :: as) < valR (b :: bs) := by
        show a * AddrBase ^ as.length + valR as < b * AddrBase ^ bs.length + valR bs
        rw [hlen']
        calc a * AddrBase ^ bs.length + valR as
            < a * AddrBase ^ bs.length + AddrBase ^ bs.length := by
              rw [← hlen']; omega
          _ = (a + 1) * AddrBase ^ bs.length := by ring
          _ ≤ b * AddrBase ^ bs.length := Nat.mul_le_mul_right _ (by omega)
          _ ≤ b * AddrBase ^ bs.length + valR bs := by omega
      rw [if_pos this]
    · by_cases hba : b < a
      · rw [if_neg hab, if_pos hba]
        have : valR (b :: bs) < valR (a :: as) := by
          show b * AddrBase ^ bs.length + valR bs < a * AddrBase ^ as.length + valR as
          rw [hlen']
          calc b * AddrBase ^ bs.length + valR bs
              < b * AddrBase ^ bs.length + AddrBase ^ bs.length := by omega
            _ = (b + 1) * AddrBase ^ bs.length := by ring
            _ ≤ a * AddrBase ^ bs.length := Nat.mul_le_mul_right _ (by omega)
            _ ≤ a * AddrBase ^ bs.length + valR as := by omega
        rw [if_neg (by omega), if_pos this]
      · have hab' : a = b := by omega
        subst hab'
        rw [if_neg hab, if_neg hba]
        have ih := cmpMS_correct as bs hlen'
          (fun d hd => hr d (List.mem_cons_of_mem a hd))
          (fun d hd => hs d (List.mem_cons_of_mem a hd))
        rw [ih]
        have hvv : valR (a :: as) < valR (a :: bs) ↔ valR as < valR bs := by
          show a * AddrBase ^ as.length + valR as <
            a * AddrBase ^ bs.length + valR bs ↔ _
          rw [hlen']
          omega
        have hvv' : valR (a :: bs) < valR (a :: as) ↔ valR bs < valR as := by
          show a * AddrBase ^ bs.length + valR bs <
            a * AddrBase ^ as.length + valR as ↔ _
          rw [hlen']
          omega
        by_cases h1 : valR as < valR bs
        · rw [if_pos h1, if_pos (hvv.mpr h1)]
        · by_cases h2 : valR bs < valR as
          · rw [if_neg h1, if_pos h2, if_neg (by rw [hvv]; omega), if_pos (hvv'.mpr h2)]
          · rw [if_neg h1, if_neg h2, if_neg (by rw [hvv]; omega),
              if_neg (by rw [hvv']; omega)]

/-- `compare` computes the numeric order on well-formed (constructor-built)
values. -/
theorem compareD_correct (x y : List Nat) (hx : AddrWF x) (hy : AddrWF y) :
    compareD x y = if valD x < valD y then -1 else if valD y < valD x then 1 else 0 := by
  unfold compareD
  by_cases hlt : x.length < y.length
  · rw [if_pos hlt]
    have hylen : y ≠ [] := by
      intro h
      subst h
      simp at hlt
    have h1 : valD x < AddrBase ^ x.length := valD_lt x hx.1
    have h2 : AddrBase ^ (y.length - 1) ≤ valD y := le_valD_of_trimmed y hylen hy.2
    have h3 : AddrBase ^ x.length ≤ AddrBase ^ (y.length - 1) :=
      Nat.pow_le_pow_right (by decide) (by omega)
    rw [if_pos (by omega)]
  · by_cases hgt : y.length < x.length
    · rw [if_neg hlt, if_pos hgt]
      have hxlen : x ≠ [] := by
        intro h
        subst h
        simp at hgt
      have h1 : valD y < AddrBase ^ y.length := valD_lt y hy.1
      have h2 : AddrBase ^ (x.length - 1) ≤ valD x := le_valD_of_trimmed x hxlen hx.2
      have h3 : AddrBase ^ y.length ≤ AddrBase ^ (x.length - 1) :=
        Nat.pow_le_pow_right (by decide) (by omega)
      rw [if_neg (by omega), if_pos (by omega)]
    · rw [if_neg hlt, if_neg hgt]
      have hlen : x.reverse.length = y.reverse.length := by
        simp
        omega
      have hgx : goodDigits x.reverse := fun d hd => hx.1 d (List.mem_reverse.mp hd)
      have hgy : goodDigits y.reverse := fun d hd => hy.1 d (List.mem_reverse.mp hd)
      rw [cmpMS_correct x.reverse y.reverse hlen hgx hgy, valR_reverse, valR_reverse]

theorem valD_addDigits : ∀ (x y : List Nat) (c : Nat),
    valD (addDigits x y c) = valD x + valD y + c
  | [], [], c => by simp [addDigits, valD]
  | [], b :: bs, c => by
    have ih := valD_addDigits [] bs ((b + c) / AddrBase)
    simp only [AddrBase] at ih
    simp only [addDigits, valD, AddrBase, ih]
    omega
  | a :: as, [], c => by
    have ih := valD_addDigits as [] ((a + c) / AddrBase)
    simp only [AddrBase] at ih
    simp only [addDigits, valD, AddrBase, ih]
    omega
  | a :: as, b :: bs, c => by
    have ih := valD_addDigits as bs ((a + b + c) / AddrBase)
    simp only [AddrBase] at ih
    simp only [addDigits, valD, AddrBase, ih]
    omega

theorem goodDigits_addDigits : ∀ (x y : List Nat) (c : Nat),
    goodDigits x → goodDigits y → c ≤ 1 → goodDigits (addDigits x y c)
  | [], [], c, _, _, hc => by
    intro d hd
    simp only [addDigits, List.mem_singleton] at hd
    subst hd
    have h2 : 1 < AddrBase := by decide
    omega
  | [], b :: bs, c, hx, hy, hc => by
    have hb : b < AddrBase := hy b (List.mem_cons_self b bs)
    have hcarry : (b + c) / AddrBase ≤ 1 := by
      simp only [AddrBase] at hb ⊢
      omega
    have ih := goodDigits_addDigits [] bs ((b + c) / AddrBase) hx
      (fun d hd => hy d (List.mem_cons_of_mem b hd)) hcarry
    intro d hd
    simp only [addDigits] at hd
    rcases List.mem_cons.mp hd with h | h
    · subst h
      exact Nat.mod_lt _ addrBase_pos
    · exact ih d h
  | a :: as, [], c, hx, hy, hc => by
    have ha : a < AddrBase := hx a (List.mem_cons_self a as)
    have hcarry : (a + c) / AddrBase ≤ 1 := by
      simp only [AddrBase] at ha ⊢
      omega
    have ih := goodDigits_addDigits as [] ((a + c) / AddrBase)
      (fun d hd => hx d (List.mem_cons_of_mem a hd)) hy hcarry
    intro d hd
    simp only [addDigits] at hd
    rcases List.mem_cons.mp hd with h | h
    · subst h
      exact Nat.mod_lt _ addrBase_pos
    · exact ih d h
  | a :: as, b :: bs, c, hx, hy, hc => by
    have ha : a < AddrBase := hx a (List.mem_cons_self a as)
    have hb : b < AddrBase := hy b (List.mem_cons_self b bs)
    have hcarry : (a + b + c) / AddrBase ≤ 1 := by
      simp only [AddrBase] at ha hb ⊢
      omega
    have ih := goodDigits_addDigits as bs ((a + b + c) / AddrBase)
      (fun d hd => hx d (List.mem_cons_of_mem a hd))
      (fun d hd => hy d (List.mem_cons_of_mem b hd)) hcarry
    intro d hd
    simp only [addDigits] at hd
    rcases List.mem_cons.mp hd with h | h
    · subst h
      exact Nat.mod_lt _ addrBase_pos
    · exact ih d h

theorem goodDigits_nil : goodDigits [] := fun d hd => absurd hd (List.not_mem_nil d)

theorem subDigits_spec : ∀ (x y : List Nat) (br : Nat),
    goodDigits x → goodDigits y → br ≤ 1 →
    (valD y + br ≤ valD x →
      ∃ out, subDigits x y br = some out ∧
        valD out = valD x - valD y - br ∧ goodDigits out) ∧
    (valD x < valD y + br → subDigits x y br = none)
  | [], [], br, _, _, hbr => by
    constructor
    · intro hge
      have hbr0 : br = 0 := by simp only [valD] at hge; omega
      exact ⟨[], by simp [subDigits, hbr0], by simp [valD], goodDigits_nil⟩
    · intro hlt
      have hne : ¬br = 0 := by simp only [valD] at hlt; omega
      simp [subDigits, hne]
  | [], b :: bs, br, hx, hy, hbr => by
    have hb : b < AddrBase := hy b (List.mem_cons_self b bs)
    have hgbs : goodDigits bs := fun d hd => hy d (List.mem_cons_of_mem b hd)
    by_cases hlt : 0 < b + br
    · have hsub : subDigits [] (b :: bs) br =
          (subDigits [] bs 1).map ((0 + AddrBase - (b + br)) :: ·) := by
        simp only [subDigits, if_pos hlt]
      have ih := subDigits_spec [] bs 1 goodDigits_nil hgbs le_rfl
      constructor
      · intro hge
        exfalso
        simp only [valD, AddrBase] at hge
        omega
      · intro hlt2
        have h2 : valD [] < valD bs + 1 := by simp only [valD]; omega
        rw [hsub, ih.2 h2]
        rfl
    · have hb0 : b = 0 := by omega
      have hbr0 : br = 0 := by omega
      have hsub : subDigits [] (b :: bs) br =
          (subDigits [] bs 0).map ((0 - (b + br)) :: ·) := by
        simp only [subDigits, if_neg hlt]
      have ih := subDigits_spec [] bs 0 goodDigits_nil hgbs (by omega)
      constructor
      · intro hge
        have hge' : valD bs + 0 ≤ valD [] := by
          simp only [valD, AddrBase] at hge ⊢
          omega
        obtain ⟨out', hout', hval', hgood'⟩ := ih.1 hge'
        refine ⟨(0 - (b + br)) :: out', by rw [hsub, hout']; rfl, ?_, ?_⟩
        · simp only [valD, AddrBase] at hval' hge ⊢
          omega
        · intro d hd
          rcases List.mem_cons.mp hd with h | h
          · subst h
            have h2 : (1 : Nat) < AddrBase := by decide
            omega
          · exact hgood' d h
      · intro hlt2
        have h2 : valD [] < valD bs + 0 := by
          simp only [valD, AddrBase] at hlt2 ⊢
          omega
        rw [hsub, ih.2 h2]
        rfl
  | a :: as, [], br, hx, hy, hbr => by
    have ha : a < AddrBase := hx a (List.mem_cons_self a as)
    have hgas : goodDigits as := fun d hd => hx d (List.mem_cons_of_mem a hd)
    by_cases hlt : a < br
    · have hsub : subDigits (a :: as) [] br =
          (subDigits as [] 1).map ((a + AddrBase - br) :: ·) := by
        simp only [subDigits, if_pos hlt]
      have ih := subDigits_spec as [] 1 hgas goodDigits_nil le_rfl
      constructor
      · intro hge
        have hge' : valD [] + 1 ≤ valD as := by
          simp only [valD, AddrBase] at hge ⊢
          omega
        obtain ⟨out', hout', hval', hgood'⟩ := ih.1 hge'
        refine ⟨(a + AddrBase - br) :: out', by rw [hsub, hout']; rfl, ?_, ?_⟩
        · simp only [valD, AddrBase] at hval' hge ⊢
          omega
        · intro d hd
          rcases List.mem_cons.mp hd with h | h
          · subst h
            simp only [AddrBase] at ha ⊢
            omega
          · exact hgood' d h
      · intro hlt2
        have h2 : valD as < valD [] + 1 := by
          simp only [valD, AddrBase] at hlt2 ⊢
          omega
        rw [hsub, ih.2 h2]
        rfl
    · have hsub : subDigits (a :: as) [] br =
          (subDigits as [] 0).map ((a - br) :: ·) := by
        simp only [subDigits, if_neg hlt]
      have ih := subDigits_spec as [] 0 hgas goodDigits_nil (by omega)
      constructor
      · intro hge
        have hge' : valD [] + 0 ≤ valD as := by simp only [valD]; omega
        obtain ⟨out', hout', hval', hgood'⟩ := ih.1 hge'
        refine ⟨(a - br) :: out', by rw [hsub, hout']; rfl, ?_, ?_⟩
        · simp only [valD, AddrBase] at hval' hge ⊢
          omega
        · intro d hd
          rcases List.mem_cons.mp hd with h | h
          · subst h
            simp only [AddrBase] at ha ⊢
            omega
          · exact hgood' d h
      · intro hlt2
        exfalso
        simp only [valD, AddrBase] at hlt2
        omega
  | a :: as, b :: bs, br, hx, hy, hbr => by
    have ha : a < AddrBase := hx a (List.mem_cons_self a as)
    have hb : b < AddrBase := hy b (List.mem_cons_self b bs)
    have hgas : goodDigits as := fun d hd => hx d (List.mem_cons_of_mem a hd)
    have hgbs : goodDigits bs := fun d hd => hy d (List.mem_cons_of_mem b hd)
    by_cases hlt : a < b + br
    · have hsub : subDigits (a :: as) (b :: bs) br =
          (subDigits as bs 1).map ((a + AddrBase - (b + br)) :: ·) := by
        simp only [subDigits, if_pos hlt]
      have ih := subDigits_spec as bs 1 hgas hgbs le_rfl
      constructor
      · intro hge
        have hge' : valD bs + 1 ≤ valD as := by
          simp only [valD, AddrBase] at hge hb ha ⊢
          omega
        obtain ⟨out', hout', hval', hgood'⟩ := ih.1 hge'
        refine ⟨(a + AddrBase - (b + br)) :: out', by rw [hsub, hout']; rfl, ?_, ?_⟩
        · simp only [valD, AddrBase] at hval' hge ha hb ⊢
          omega
        · intro d hd
          rcases List.mem_cons.mp hd with h | h
          · subst h
            simp only [AddrBase] at ha hb ⊢
            omega
          · exact hgood' d h
      · intro hlt2
        have h2 : valD as < valD bs + 1 := by
          simp only [valD, AddrBase] at hlt2 ha hb ⊢
          omega
        rw [hsub, ih.2 h2]
        rfl
    · have hsub : subDigits (a :: as) (b :: bs) br =
          (subDigits as bs 0).map ((a - (b + br)) :: ·) := by
        simp only [subDigits, if_neg hlt]
      have ih := subDigits_spec as bs 0 hgas hgbs (by omega)
      constructor
      · intro hge
        have hge' : valD bs + 0 ≤ valD as := by
          simp only [valD, AddrBase] at hge ha hb ⊢
          omega
        obtain ⟨out', hout', hval', hgood'⟩ := ih.1 hge'
        refine ⟨(a - (b + br)) :: out', by rw [hsub, hout']; rfl, ?_, ?_⟩
        · simp only [valD, AddrBase] at hval' hge ha hb ⊢
          omega
        · intro d hd
          rcases List.mem_cons.mp hd with h | h
          · subst h
            simp only [AddrBase] at ha ⊢
            omega
          · exact hgood' d h
      · intro hlt2
        have h2 : valD as < valD bs + 0 := by
          simp only [valD, AddrBase] at hlt2 ha hb ⊢
          omega
        rw [hsub, ih.2 h2]
        rfl

/-- C9.  On well-formed (constructor-produced) `AddrJS` values:
if `b.compare(a) <= 0` then `a.sub(b)` succeeds and `a.sub(b).add(b)`
compares equal to `a`; if `b.compare(a) > 0` then `a.sub(b)` throws
("negative result"). -/
theorem addrJS_sub_add_inverse (a b : List Nat) (ha : AddrWF a) (hb : AddrWF b) :
    (compareD b a ≤ 0 → ∃ d, subA a b = some d ∧ compareD (addA d b) a = 0) ∧
    (0 < compareD b a → subA a b = none) := by
  have hcmp := compareD_correct b a hb ha
  constructor
  · intro hle
    have hvle : valD b ≤ valD a := by
      by_contra hgt
      push_neg at hgt
      rw [hcmp, if_neg (by omega), if_pos hgt] at hle
      omega
    obtain ⟨out, hout, hval, hgood⟩ :=
      (subDigits_spec a b 0 ha.1 hb.1 (by omega)).1 (by omega)
    refine ⟨trimD out, ?_, ?_⟩
    · unfold subA
      rw [hout]
      rfl
    · have hd_wf : AddrWF (trimD out) := addrWF_trimD out hgood
      have hval_d : valD (trimD out) = valD a - valD b := by
        rw [valD_trimD, hval]
        omega
      have hsum_good : goodDigits (addDigits (trimD out) b 0) :=
        goodDigits_addDigits _ _ 0 hd_wf.1 hb.1 (by omega)
      have hsum_wf : AddrWF (addA (trimD out) b) := addrWF_trimD _ hsum_good
      have hsum_val : valD (addA (trimD out) b) = valD a := by
        unfold addA
        rw [valD_trimD, valD_addDigits, hval_d]
        omega
      rw [compareD_correct _ _ hsum_wf ha, hsum_val]
      simp
  · intro hgt
    have hvgt : valD a < valD b := by
      by_contra hge
      push_neg at hge
      rcases Nat.lt_or_ge (valD b) (valD a) with h | h
      · rw [hcmp, if_pos h] at hgt
        omega
      · rw [hcmp, if_neg (by omega), if_neg (by omega)] at hgt
        omega
    have hnone := (subDigits_spec a b 0 ha.1 hb.1 (by omega)).2 (by omega)
    unfold subA
    rw [hnone]
    rfl

/-- Witness for C9 at `a = [5]`, `b = [3]` (the addresses 5 and 3). -/
theorem addrJS_sub_add_inverse_witness :
    compareD [3] [5] ≤ 0 ∧
    ∃ d, subA [5] [3] = some d ∧ compareD (addA d [3]) [5] = 0 :=
  ⟨by decide,
    (addrJS_sub_add_inverse [5] [3]
        ⟨fun d hd => by simp at hd; subst hd; decide,
          fun d hd => by simp at hd; omega⟩
        ⟨fun d hd => by simp at hd; subst hd; decide,
          fun d hd => by simp at hd; omega⟩).1 (by decide)⟩

/-! ## `IntervalMap.intersect` (C10)

`intersect` advances its two cursors with
`ranges[i][0] < this.ranges[j][0]`: a relational `<` between two `AddrJS`
objects, which JavaScript evaluates by converting both operands to
primitives — here their `toString()` hex strings — and comparing those
strings lexicographically. -/

/-- `Number.prototype.toString(16)` for one digit (lowercase hex). -/
def hexChars (n : Nat) : List Char := Nat.toDigits 16 n

/-- `padStart(AddrJSDigits, "0")` with `AddrJSDigits = 28 / 4 = 7`. -/
def padStart7 (l : List Char) : List Char :=
  if l.length < 7 then List.replicate (7 - l.length) '0' ++ l else l

/-- `AddrJS.prototype.toString`: most significant digit unpadded, the rest
padded to 7 hex digits; `"0"` for the empty digit list. -/
def addrToString (l : List Nat) : List Char :=
  match l.reverse with
  | [] => ['0']
  | top :: rest => hexChars top ++ (rest.map (fun d => padStart7 (hexChars d))).flatten

/-- JavaScript string `<`: lexicographic by code unit, a proper prefix is
smaller. -/
def strLtJS : List Char → List Char → Bool
  | [], [] => false
  | [], _ :: _ => true
  | _ :: _, [] => false
  | a :: as, b :: bs =>
    if a.toNat < b.toNat then true
    else if b.toNat < a.toNat then false
    else strLtJS as bs

/-- `IntervalMap.overlap`: half-open interval intersection, via the
`compare` method (this helper is numerically correct). -/
def overlapJS (r1 r2 : List Nat × List Nat) : Bool :=
  decide (0 < compareD r1.2 r2.1) && decide (compareD r1.1 r2.2 < 0)

/-- `IntervalMap.intersect`: two-cursor sweep.  On overlap, emit the stored
range and advance the stored cursor; otherwise advance the query cursor when
`ranges[i][0] < this.ranges[j][0]` — the JS `<` on `AddrJS` objects, i.e.
comparison of their hex `toString()` values — else the stored cursor. -/
def intersectJS :
    List (List Nat × List Nat) → List (List Nat × List Nat) →
      List (List Nat × List Nat)
  | [], _ => []
  | _ :: _, [] => []
  | q :: qs, s :: ss =>
    if overlapJS q s then s :: intersectJS (q :: qs) ss
    else if strLtJS (addrToString q.1) (addrToString s.1) then
      intersectJS qs (s :: ss)
    else intersectJS (q :: qs) ss
termination_by x y => x.length + y.length

/-- C10 (code bug): with the stored range `[0x10, 0x20)` and the sorted,
non-empty query ranges `[0xf, 0x10)` and `[0x18, 0x19)`, the stored range
overlaps the second query, yet `intersect` returns nothing: at the first
query the advance test compares the hex strings `"f" < "10"`, which is false
(`'f' > '1'`) although `0xf < 0x10` numerically, so the stored cursor is
advanced past the range a later query overlaps.  The documented contract
("return the subset that overlap") — which the adjacent code honours by
using `.compare` — is violated. -/
theorem intersectJS_drops_overlap :
    (compareD [15] [16] < 0 ∧ compareD [24] [25] < 0 ∧
      compareD [16] [32] < 0 ∧ compareD [15] [24] < 0) ∧
    overlapJS ([24], [25]) ([16], [32]) = true ∧
    strLtJS (addrToString [15]) (addrToString [16]) = false ∧
    intersectJS [([15], [16]), ([24], [25])] [([16], [32])] = [] :=
  ⟨by decide, by decide, by decide, by simp only [intersectJS]; decide⟩

end Objbrowse
